import Mathlib

/-!
Verification of the gitNote note-index reconciliation engine.

This file gives a shallow embedding of the relevant parts of gitNote.py:
the Note model, the Markdown note parser (the four regular-expression
extractions in parse_md), the JSON index store (NoteDB) with its upsert,
id assignment and count maintenance, and the build cycle driver.
Python strings are modelled as lists of characters, fallible operations
return Option or Except, and the mutable notes list of the index is
threaded explicitly.
-/

set_option maxRecDepth 4000

/-- Python strings are modelled as lists of characters. -/
abbrev Str := List Char

/-- The Note value object of gitNote.py (class Note).  The field content_raw
holds the original Markdown body, content holds the rendered HTML, id is the
optional integer identifier (Python None becomes none), tags is an optional
list of tag strings (Python None becomes none) and date_created is the
timestamp string. -/
structure Note where
  title : Str
  content_raw : Str
  content : Str
  id : Option Int
  tags : Option (List Str)
  date_created : Str
deriving DecidableEq

/-- One record of the persisted notes sequence of the index document, as
built by NoteDB._note_to_dict.  A record read back from JSON may carry a
null id, hence id is optional. -/
structure NoteRec where
  id : Option Int
  title : Str
  content : Str
  tags : Option (List Str)
  date_created : Str
deriving DecidableEq

/-- The persisted index document: blog title, author, count and the notes
sequence.  The pages field of the JSON file is opaque and unused by the
core, so it is modelled as a list of units. -/
structure IndexDoc where
  blog_title : Str
  author : Str
  count : Nat
  notes : List NoteRec
  pages : List Unit
deriving DecidableEq

/-- Rendering markdown to HTML (method Note.md_to_html).  The renderer
itself (markdown2.markdown) is an external collaborator and is passed in as
a pure function rend.  The method raises SystemExit when self.content_raw
is empty, modelled as Except.error. -/
def Note.md_to_html (content_raw : Str) (rend : Str → Str) (text : Str) : Except Unit Str :=
  if content_raw = [] then Except.error () else Except.ok (rend text)

/-- The Note constructor (the Python init method of class Note).
With content = none it stores an empty content_raw and silently sets the
rendered content to the empty string without calling the renderer; with
content = some c it sets content_raw to c first and then calls md_to_html,
which fails when content_raw is empty, i.e. exactly when c is empty. -/
def Note.init (rend : Str → Str) (title : Str) (content : Option Str)
    (tags : Option (List Str)) (nid : Option Int) (date : Str) : Except Unit Note :=
  match content with
  | none => Except.ok ⟨title, [], [], nid, tags, date⟩
  | some c =>
    (Note.md_to_html c rend c).map fun html => ⟨title, c, html, nid, tags, date⟩

/-- The type-checking decorator Note._check_type.  The wrapper asserts the
argument types (always satisfied in this typed model) and then calls the
wrapped function but never returns its result, so the wrapper always
returns Python None, modelled as none. -/
def Note.check_type (f : Note → Note → Bool) (a b : Note) : Option Bool :=
  let _ := f a b
  none

/-- The body of Note.__eq__ before decoration: title and rendered content
comparison. -/
def Note.eq_inner (a b : Note) : Bool :=
  a.title == b.title && a.content == b.content

/-- Python string comparison greater-or-equal, lexicographic by code point
with shorter strings smaller. -/
def strGe : Str → Str → Bool
  | _, [] => true
  | [], _ :: _ => false
  | x :: xs, y :: ys => if x = y then strGe xs ys else decide (y < x)

/-- The body of Note.__ge__ before decoration: date_created comparison. -/
def Note.ge_inner (a b : Note) : Bool :=
  strGe a.date_created b.date_created

/-- Note.__eq__ as actually defined: the decorated comparison. -/
def Note.py_eq (a b : Note) : Option Bool :=
  Note.check_type Note.eq_inner a b

/-- Note.__ge__ as actually defined: the decorated comparison. -/
def Note.py_ge (a b : Note) : Option Bool :=
  Note.check_type Note.ge_inner a b

/-- The serializer Note.__str__: hash, title, newline, raw content, newline,
Posted on and the date, newline, the Tags marker with one space and the
comma-joined tags (an absent tag list serializes like an empty one), and a
final newline.  The textwrap.dedent call is the identity here because the
first line starts with a hash character. -/
def Note.str (n : Note) : Str :=
  '#' :: n.title ++ '\n' :: n.content_raw ++
    '\n' :: ("Posted on ".toList ++ n.date_created) ++
    '\n' :: ("Tags: ".toList ++ List.intercalate [','] (n.tags.getD []) ++ ['\n'])

/-- NoteDB._write_data recomputes the count field from the length of the
notes sequence before serializing the document. -/
def NoteDB._write_data (d : IndexDoc) : IndexDoc :=
  { d with count := d.notes.length }

/-- Truthiness of an optional integer in Python: None and 0 are falsy. -/
def isFalsy : Option Int → Bool
  | none => true
  | some k => k == 0

/-- The list comprehension in NoteDB._new_id: the ids of all records whose
id is not null. -/
def nonNullIds (notes : List NoteRec) : List Int :=
  notes.filterMap (fun r => r.id)

/-- Python max over a list of integers: fails (ValueError) on an empty
list, modelled as none. -/
def pymax : List Int → Option Int
  | [] => none
  | x :: xs => some (xs.foldl max x)

/-- NoteDB._new_id: when the posted note has a falsy id (None or 0) it
returns one plus the maximum of the non-null ids of the current records,
failing when there is none; otherwise it returns the id of the note
verbatim. -/
def NoteDB._new_id (notes : List NoteRec) (note : Note) : Option Int :=
  if isFalsy note.id then (pymax (nonNullIds notes)).map (fun m => m + 1)
  else note.id

/-- The record literal built by NoteDB._note_to_dict once the id i is
known. -/
def mkRec (note : Note) (i : Int) : NoteRec :=
  ⟨some i, note.title, note.content, note.tags, note.date_created⟩

/-- NoteDB._note_to_dict: with nid = none (the Python default None) the id
comes from _new_id, otherwise the given nid is used. -/
def NoteDB._note_to_dict (notes : List NoteRec) (note : Note) (nid : Option Int) :
    Option NoteRec :=
  match nid with
  | some i => some (mkRec note i)
  | none => (NoteDB._new_id notes note).map (mkRec note)

/-- The replacement loop in the else branch of NoteDB.post: iterate over
the live notes list by index, replacing every record whose title matches,
passing the stored id of that record to _note_to_dict (a null stored id
falls through to _new_id over the current, already partially updated
list).  The fuel argument is the number of remaining iterations; the
initial call supplies the length of the list, which stays constant under
set. -/
def NoteDB.replaceGo (note : Note) : Nat → List NoteRec → Nat → Option (List NoteRec)
  | 0, cur, _ => some cur
  | fuel + 1, cur, i =>
    if h : i < cur.length then
      let n := cur.get ⟨i, h⟩
      if n.title = note.title then
        match NoteDB._note_to_dict cur note n.id with
        | none => none
        | some r => NoteDB.replaceGo note fuel (cur.set i r) (i + 1)
      else NoteDB.replaceGo note fuel cur (i + 1)
    else some cur

/-- NoteDB.post, the upsert: when no current record carries the title of
the note, a record for it (with an id from _note_to_dict) is appended and
the document written; otherwise every matching record is replaced in the
loop and the document written after each replacement, which leaves the
same final document as one write at the end. -/
def NoteDB.post (db : IndexDoc) (note : Note) : Option IndexDoc :=
  if note.title ∈ db.notes.map (fun r => r.title) then
    (NoteDB.replaceGo note db.notes.length db.notes 0).map
      (fun ns => NoteDB._write_data { db with notes := ns })
  else
    (NoteDB._note_to_dict db.notes note none).map
      (fun r => NoteDB._write_data { db with notes := db.notes ++ [r] })

/-- Posting a sequence of notes one after the other, stopping at the first
failure. -/
def NoteDB.postAll (db : IndexDoc) : List Note → Option IndexDoc
  | [] => some db
  | n :: rest =>
    match NoteDB.post db n with
    | none => none
    | some db2 => NoteDB.postAll db2 rest

/-- Sequential id assignment starting at a given id: the records the append
branch of post produces for a run of fresh notes. -/
def assignIds (start : Int) : List Note → List NoteRec
  | [] => []
  | n :: rest => mkRec n start :: assignIds (start + 1) rest

/-- Errors a Python run can end with, as far as the claims need them. -/
inductive PyError
  | nameError
deriving DecidableEq

/-- The build command (method CLIParse.build): for every changed file the
loop body starts with parse_md applied to the name filename, but filename
is bound nowhere in the function, the module or the builtins, so Python
raises NameError on the first iteration; with no changed file the loop
body never runs and the cycle finishes.  The argument is the list of
changed markdown files reported by the change-set provider. -/
def CLIParse.build (changed : List Str) : Except PyError Unit :=
  match changed with
  | [] => Except.ok ()
  | _ :: _ => Except.error PyError.nameError

/-- One run of NoteDB._write_data at the file level.  The Python code opens
the index file itself with mode w, which truncates it at once, and then
streams the serialization produced by json.dump into it; ser is the
serializer and fail = some k models an IOError after k characters have
been written, fail = none a fully successful write.  The result is the
file content a subsequent read observes; the previous content prev is
overwritten in place and never consulted. -/
def writeDataRun (prev : Option Str) (d : IndexDoc) (ser : IndexDoc → Str)
    (fail : Option Nat) : Option Str :=
  let _ := prev
  match fail with
  | none => some (ser (NoteDB._write_data d))
  | some k => some ((ser (NoteDB._write_data d)).take k)

/-- C3: after every persist of the index document the count field equals
the length of the notes sequence, regardless of the count value the
document held before, and the notes themselves are unchanged by the
persist. -/
theorem write_data_count (d : IndexDoc) (c0 : Nat) :
    (NoteDB._write_data { d with count := c0 }).count = d.notes.length ∧
    (NoteDB._write_data d).count = d.notes.length ∧
    (NoteDB._write_data d).notes = d.notes := by
  refine ⟨rfl, rfl, rfl⟩

/-- C9: the decorated comparisons of Note always return Python None (a
falsy value), even on identical arguments, because the _check_type wrapper
discards the result of the wrapped comparison; hence no two Note values
ever compare equal and none compares greater-or-equal to another. -/
theorem note_comparisons_return_none (a b : Note) :
    Note.py_eq a b = none ∧ Note.py_ge a b = none ∧ Note.py_eq a a = none := by
  refine ⟨rfl, rfl, rfl⟩

/-- C7 counterexample: a Note constructed with absent content does not
fail; it is built successfully with the rendered content silently set to
the empty string, contradicting the claim that construction with absent
raw content makes rendering fail. -/
theorem note_init_none_succeeds :
    Note.init (fun s => s) ['t'] none none none ['d'] =
      Except.ok ⟨['t'], [], [], none, none, ['d']⟩ := rfl

/-- C7 amended: constructing a Note with content the empty string fails
(md_to_html raises because content_raw is empty), and md_to_html always
fails on empty raw content, for any renderer; but constructing a Note with
absent content succeeds, skips the renderer, and silently stores an empty
rendered string. -/
theorem note_empty_content_render_fails (rend : Str → Str) (title date : Str)
    (tags : Option (List Str)) (nid : Option Int) :
    Note.init rend title (some []) tags nid date = Except.error () ∧
    (∀ text, Note.md_to_html [] rend text = Except.error ()) ∧
    Note.init rend title none tags nid date =
      Except.ok ⟨title, [], [], nid, tags, date⟩ := by
  refine ⟨rfl, fun text => rfl, rfl⟩

/-- C6: the sync cycle of the build command aborts with NameError on the
first changed file, because the loop body applies parse_md to the unbound
name filename; with the two changed files of the scenario (both notes
titled X) the cycle therefore never reaches the index, instead of
finishing with one record for X. -/
theorem build_two_files_name_error :
    CLIParse.build ["notes/x1.md".toList, "notes/x2.md".toList] =
      Except.error PyError.nameError ∧
    CLIParse.build [] = Except.ok () := by
  refine ⟨rfl, rfl⟩

/-- C8 counterexample: persisting over a previously persisted index with a
write failure right after the open does not leave the previous index
intact: the observable file is empty, which is neither the previous
content nor the new document, because the open with mode w truncates the
index file in place. -/
theorem write_data_failure_not_intact :
    writeDataRun (some ['x']) ⟨[], [], 0, [], []⟩ (fun d => 'J' :: d.blog_title) (some 0) =
      some [] ∧
    some ([] : Str) ≠ some ['x'] ∧
    some ([] : Str) ≠
      some ((fun (d : IndexDoc) => 'J' :: d.blog_title) (NoteDB._write_data ⟨[], [], 0, [], []⟩)) := by
  refine ⟨rfl, by decide, by decide⟩

/-- C8 amended: persist writes the index file in place with no temporary
file: on full success the file holds exactly the serialized document with
the count recomputed, a failure after k characters leaves the k-character
prefix of that serialization observable (truncation at open means a
failure straight away leaves an empty file), and the resulting content
never depends on the previously persisted index. -/
theorem write_data_in_place (prev : Option Str) (d : IndexDoc) (ser : IndexDoc → Str) :
    writeDataRun prev d ser none = some (ser (NoteDB._write_data d)) ∧
    (∀ k, writeDataRun prev d ser (some k) = some ((ser (NoteDB._write_data d)).take k)) ∧
    writeDataRun prev d ser (some 0) = some [] ∧
    (∀ prev2 fail, writeDataRun prev d ser fail = writeDataRun prev2 d ser fail) := by
  refine ⟨rfl, fun k => rfl, by simp [writeDataRun], fun prev2 fail => rfl⟩

/-- Setting an element of a list to its current value leaves the list
unchanged. -/
theorem set_getElem_eq_self {α : Type} (l : List α) (i : Nat) (h : i < l.length) :
    l.set i l[i] = l := by
  apply List.ext_getElem
  · simp
  · intro j hj hj2
    by_cases hij : i = j
    · subst hij; simp
    · rw [List.getElem_set_ne hij]

/-- Every record _note_to_dict builds carries the title of the posted
note. -/
theorem note_to_dict_title (notes : List NoteRec) (note : Note) (nid : Option Int)
    (r : NoteRec) (h : NoteDB._note_to_dict notes note nid = some r) :
    r.title = note.title := by
  cases nid with
  | some i =>
    simp only [NoteDB._note_to_dict] at h
    cases h
    rfl
  | none =>
    simp only [NoteDB._note_to_dict, Option.map_eq_some'] at h
    obtain ⟨v, _, hv⟩ := h
    cases hv
    rfl

/-- When no record from position i on carries the posted title, the
replacement loop changes nothing. -/
theorem replaceGo_no_match (note : Note) :
    ∀ (fuel : Nat) (cur : List NoteRec) (i : Nat),
      (∀ p (hp : p < cur.length), i ≤ p → cur[p].title ≠ note.title) →
      NoteDB.replaceGo note fuel cur i = some cur := by
  intro fuel
  induction fuel with
  | zero => intro cur i _; rfl
  | succ fuel ih =>
    intro cur i h
    simp only [NoteDB.replaceGo]
    by_cases hlt : i < cur.length
    · rw [dif_pos hlt]
      have hne : (cur.get ⟨i, hlt⟩).title ≠ note.title := by
        simpa using h i hlt le_rfl
      rw [if_neg hne]
      exact ih cur (i + 1) (fun p hp hip => h p hp (by omega))
    · rw [dif_neg hlt]

/-- The replacement loop never changes the title sequence of the list:
each replacement happens at a position whose stored title already equals
the posted title. -/
theorem replaceGo_titles (note : Note) :
    ∀ (fuel : Nat) (cur : List NoteRec) (i : Nat) (res : List NoteRec),
      NoteDB.replaceGo note fuel cur i = some res →
      res.map (fun r => r.title) = cur.map (fun r => r.title) := by
  intro fuel
  induction fuel with
  | zero =>
    intro cur i res h
    simp only [NoteDB.replaceGo] at h
    cases h
    rfl
  | succ fuel ih =>
    intro cur i res h
    simp only [NoteDB.replaceGo] at h
    by_cases hlt : i < cur.length
    · rw [dif_pos hlt] at h
      by_cases hti : (cur.get ⟨i, hlt⟩).title = note.title
      · rw [if_pos hti] at h
        cases hd : NoteDB._note_to_dict cur note (cur.get ⟨i, hlt⟩).id with
        | none => rw [hd] at h; cases h
        | some r =>
          rw [hd] at h
          have hres := ih (cur.set i r) (i + 1) res h
          rw [hres, List.map_set]
          have hrt : r.title = note.title := note_to_dict_title _ _ _ _ hd
          have hlt2 : i < (cur.map (fun r => r.title)).length := by simpa using hlt
          have hcur : (cur.map (fun r => r.title))[i] = note.title := by
            simpa using hti
          rw [hrt, ← hcur]
          exact set_getElem_eq_self (cur.map (fun r => r.title)) i (by simpa using hlt)
      · rw [if_neg hti] at h
        exact ih cur (i + 1) res h
    · rw [dif_neg hlt] at h
      cases h
      rfl

/-- When exactly one position from i on carries the posted title and its
stored id is the integer k, the replacement loop replaces that one record
with the record of the posted note under the id k and changes nothing
else. -/
theorem replaceGo_unique (note : Note) :
    ∀ (fuel : Nat) (cur : List NoteRec) (i j : Nat) (hj : j < cur.length) (k : Int),
      fuel + i = cur.length → i ≤ j →
      cur[j].title = note.title →
      cur[j].id = some k →
      (∀ p (hp : p < cur.length), i ≤ p → p ≠ j → cur[p].title ≠ note.title) →
      NoteDB.replaceGo note fuel cur i = some (cur.set j (mkRec note k)) := by
  intro fuel
  induction fuel with
  | zero =>
    intro cur i j hj k hfuel hij _ _ _
    omega
  | succ fuel ih =>
    intro cur i j hj k hfuel hij htj hkj hone
    have hlt : i < cur.length := by omega
    simp only [NoteDB.replaceGo]
    rw [dif_pos hlt]
    by_cases hij2 : i = j
    · subst hij2
      have hget : cur.get ⟨i, hlt⟩ = cur[i] := by simp
      rw [if_pos (by rw [hget]; exact htj)]
      rw [hget, hkj]
      simp only [NoteDB._note_to_dict]
      have hlen : (cur.set i (mkRec note k)).length = cur.length := by simp
      have hrest : ∀ p (hp : p < (cur.set i (mkRec note k)).length), i + 1 ≤ p →
          (cur.set i (mkRec note k))[p].title ≠ note.title := by
        intro p hp hip
        have hp2 : p < cur.length := by omega
        rw [List.getElem_set_ne (by omega)]
        exact hone p hp2 (by omega) (by omega)
      exact replaceGo_no_match note fuel (cur.set i (mkRec note k)) (i + 1) hrest
    · have hne : (cur.get ⟨i, hlt⟩).title ≠ note.title := by
        have := hone i hlt le_rfl hij2
        simpa using this
      rw [if_neg hne]
      exact ih cur (i + 1) j hj k (by omega) (by omega) htj hkj
        (fun p hp hip hpj => hone p hp (by omega) hpj)

/-- The append branch of NoteDB.post: with a fresh title, the record
produced by _note_to_dict is appended and the document persisted. -/
theorem post_append (db : IndexDoc) (note : Note)
    (hfresh : note.title ∉ db.notes.map (fun r => r.title))
    (r : NoteRec) (hr : NoteDB._note_to_dict db.notes note none = some r) :
    NoteDB.post db note = some (NoteDB._write_data { db with notes := db.notes ++ [r] }) := by
  simp only [NoteDB.post]
  rw [if_neg hfresh, hr]
  rfl

/-- The replace branch of NoteDB.post: when position j holds the unique
record carrying the posted title and its stored id is k, post replaces
exactly that record, keeping the id k, and persists. -/
theorem post_replace (db : IndexDoc) (note : Note) (j : Nat) (hj : j < db.notes.length)
    (k : Int)
    (huniq : (db.notes.map (fun r => r.title)).Nodup)
    (htj : db.notes[j].title = note.title)
    (hkj : db.notes[j].id = some k) :
    NoteDB.post db note =
      some (NoteDB._write_data { db with notes := db.notes.set j (mkRec note k) }) := by
  have hmem : note.title ∈ db.notes.map (fun r => r.title) := by
    rw [← htj]
    exact List.mem_map_of_mem _ (List.getElem_mem hj)
  simp only [NoteDB.post]
  rw [if_pos hmem]
  have hone : ∀ p (hp : p < db.notes.length), 0 ≤ p → p ≠ j →
      db.notes[p].title ≠ note.title := by
    intro p hp _ hpj hcontra
    have hp2 : p < (db.notes.map (fun r => r.title)).length := by simpa using hp
    have hj2 : j < (db.notes.map (fun r => r.title)).length := by simpa using hj
    have hpm : (db.notes.map (fun r => r.title))[p] =
        (db.notes.map (fun r => r.title))[j] := by
      simp only [List.getElem_map]
      rw [hcontra, htj]
    exact hpj ((List.Nodup.getElem_inj_iff huniq).mp hpm)
  rw [replaceGo_unique note db.notes.length db.notes 0 j hj k (by omega) (by omega)
    htj hkj hone]
  rfl

/-- Appending a value to a list shifts the Python max accordingly. -/
theorem pymax_append_singleton (xs : List Int) (v : Int) :
    pymax (xs ++ [v]) =
      some (match pymax xs with | none => v | some m => max m v) := by
  cases xs with
  | nil => rfl
  | cons x xs2 => simp [pymax, List.foldl_append]

/-- Appending a record built by mkRec appends its id to the non-null
ids. -/
theorem nonNullIds_append_mkRec (notes : List NoteRec) (n : Note) (v : Int) :
    nonNullIds (notes ++ [mkRec n v]) = nonNullIds notes ++ [v] := by
  simp [nonNullIds, mkRec]

/-- C1: the upsert NoteDB.post, on an index whose titles are pairwise
distinct, appends a record with the freshly assigned id from _new_id when
no record carries the posted title, and otherwise replaces exactly the
record whose title matches, keeping its stored id k while substituting the
content of the posted note; and after any successful upsert the titles of
the index are still pairwise distinct. -/
theorem upsert_by_title (db : IndexDoc) (note : Note)
    (huniq : (db.notes.map (fun r => r.title)).Nodup) :
    (note.title ∉ db.notes.map (fun r => r.title) →
      ∀ v, NoteDB._new_id db.notes note = some v →
        NoteDB.post db note =
          some (NoteDB._write_data { db with notes := db.notes ++ [mkRec note v] })) ∧
    (∀ j (hj : j < db.notes.length) (k : Int),
      db.notes[j].title = note.title →
      db.notes[j].id = some k →
      NoteDB.post db note =
        some (NoteDB._write_data { db with notes := db.notes.set j (mkRec note k) })) ∧
    (∀ db2, NoteDB.post db note = some db2 →
      (db2.notes.map (fun r => r.title)).Nodup) := by
  refine ⟨?_, ?_, ?_⟩
  · intro hfresh v hv
    apply post_append db note hfresh
    simp [NoteDB._note_to_dict, hv]
  · intro j hj k htj hkj
    exact post_replace db note j hj k huniq htj hkj
  · intro db2 h
    simp only [NoteDB.post] at h
    by_cases hmem : note.title ∈ db.notes.map (fun r => r.title)
    · rw [if_pos hmem, Option.map_eq_some'] at h
      obtain ⟨ns, hns, hdb2⟩ := h
      have ht := replaceGo_titles note db.notes.length db.notes 0 ns hns
      subst hdb2
      simpa [NoteDB._write_data] using ht ▸ huniq
    · rw [if_neg hmem, Option.map_eq_some'] at h
      obtain ⟨r, hr, hdb2⟩ := h
      subst hdb2
      have hrt : r.title = note.title := note_to_dict_title _ _ _ _ hr
      simp only [NoteDB._write_data, List.map_append, List.map_cons, List.map_nil]
      rw [List.nodup_append]
      refine ⟨huniq, by simp, ?_⟩
      intro a ha hb
      simp only [List.mem_singleton] at hb
      subst hb
      rw [hrt] at ha
      exact hmem ha

/-- A sample record with id 1 and title a. -/
def recA : NoteRec := ⟨some 1, ['a'], ['A'], none, ['d']⟩

/-- A sample record with id 2 and title b. -/
def recB : NoteRec := ⟨some 2, ['b'], ['B'], none, ['d']⟩

/-- A sample index holding recA and recB. -/
def dbAB : IndexDoc := ⟨['T'], ['U'], 2, [recA, recB], []⟩

/-- A sample note with a fresh title c and no preset id. -/
def noteC : Note := ⟨['c'], ['r'], ['R'], none, none, ['d']⟩

/-- A sample note reusing title b with different content and no preset
id. -/
def noteB2 : Note := ⟨['b'], ['z'], ['Z'], none, none, ['d']⟩

/-- C1 witness: on the concrete two-record index, posting a fresh title
appends with the fresh id 3, and posting the existing title b replaces the
second record keeping its id 2. -/
theorem upsert_by_title_witness :
    NoteDB.post dbAB noteC =
      some (NoteDB._write_data { dbAB with notes := dbAB.notes ++ [mkRec noteC 3] }) ∧
    NoteDB.post dbAB noteB2 =
      some (NoteDB._write_data { dbAB with notes := dbAB.notes.set 1 (mkRec noteB2 2) }) :=
  ⟨(upsert_by_title dbAB noteC (by decide)).1 (by decide) 3 (by decide),
   (upsert_by_title dbAB noteB2 (by decide)).2.1 1 (by decide) 2 (by decide) (by decide)⟩

/-- C2 counterexample: inserting a first note (no preset id, fresh title)
into an index with no notes does not assign id 1: the upsert fails
outright, because _new_id takes the Python max of an empty list, which
raises ValueError. -/
theorem insert_into_empty_index_fails :
    NoteDB.post ⟨[], [], 0, [], []⟩ ⟨['b'], [], [], none, none, []⟩ = none := rfl

/-- C2 amended: starting from an index whose non-null ids have maximum M
(so the index is not empty of ids), inserting N distinct fresh-titled
notes without preset ids assigns them exactly the ids M+1, M+2, ..., M+N
in insertion order, each fresh id being max of the existing non-null ids
plus one; from an index with no notes the first insert fails instead. -/
theorem post_seq_assigns_consecutive_ids :
    ∀ (ns : List Note) (db : IndexDoc) (M : Int),
      pymax (nonNullIds db.notes) = some M →
      (∀ n ∈ ns, isFalsy n.id = true) →
      (∀ n ∈ ns, n.title ∉ db.notes.map (fun r => r.title)) →
      (ns.map (fun n => n.title)).Nodup →
      ∃ db2, NoteDB.postAll db ns = some db2 ∧
        db2.notes = db.notes ++ assignIds (M + 1) ns := by
  intro ns
  induction ns with
  | nil =>
    intro db M _ _ _ _
    exact ⟨db, rfl, by simp [assignIds]⟩
  | cons n rest ih =>
    intro db M hmax hfa hf hnd
    have hfreshn : n.title ∉ db.notes.map (fun r => r.title) :=
      hf n (List.mem_cons_self n rest)
    have hfn : isFalsy n.id = true := hfa n (List.mem_cons_self n rest)
    have hdict : NoteDB._note_to_dict db.notes n none = some (mkRec n (M + 1)) := by
      simp [NoteDB._note_to_dict, NoteDB._new_id, hfn, hmax]
    have hpost := post_append db n hfreshn (mkRec n (M + 1)) hdict
    have hnotes1 :
        (NoteDB._write_data { db with notes := db.notes ++ [mkRec n (M + 1)] }).notes =
          db.notes ++ [mkRec n (M + 1)] := rfl
    have hmax1 : pymax (nonNullIds
        (NoteDB._write_data { db with notes := db.notes ++ [mkRec n (M + 1)] }).notes) =
          some (M + 1) := by
      rw [hnotes1, nonNullIds_append_mkRec, pymax_append_singleton, hmax]
      have h2 : max M (M + 1) = M + 1 := max_eq_right (by omega)
      simp [h2]
    have hntit : n.title ∉ rest.map (fun n => n.title) := by
      simpa using hnd.not_mem
    have hf1 : ∀ n2 ∈ rest, n2.title ∉
        (NoteDB._write_data { db with notes := db.notes ++ [mkRec n (M + 1)] }).notes.map
          (fun r => r.title) := by
      intro n2 hn2
      rw [hnotes1]
      simp only [List.map_append, List.mem_append]
      rintro (h1 | h2)
      · exact hf n2 (List.mem_cons_of_mem n hn2) h1
      · simp only [List.map_cons, List.map_nil, List.mem_singleton, mkRec] at h2
        exact hntit (h2 ▸ List.mem_map_of_mem (fun n => n.title) hn2)
    obtain ⟨db2, hrest, hnotes2⟩ :=
      ih (NoteDB._write_data { db with notes := db.notes ++ [mkRec n (M + 1)] }) (M + 1)
        hmax1 (fun n2 hn2 => hfa n2 (List.mem_cons_of_mem n hn2)) hf1
        (by simpa using hnd.of_cons)
    refine ⟨db2, ?_, ?_⟩
    · show NoteDB.postAll db (n :: rest) = some db2
      simp only [NoteDB.postAll, hpost]
      exact hrest
    · rw [hnotes2, hnotes1]
      simp [assignIds, List.append_assoc]

/-- A sample record with id 5 and title a. -/
def rec5 : NoteRec := ⟨some 5, ['a'], ['A'], none, ['d']⟩

/-- A sample one-record index whose only id is 5. -/
def db5 : IndexDoc := ⟨[], [], 1, [rec5], []⟩

/-- A sample fresh-titled note without preset id. -/
def noteF1 : Note := ⟨['x'], [], [], none, none, []⟩

/-- A second sample fresh-titled note without preset id. -/
def noteF2 : Note := ⟨['y'], [], [], none, none, []⟩

/-- C2 witness: on the concrete index whose maximal id is 5, the two
fresh-titled notes receive the consecutive ids 6 and 7. -/
theorem post_seq_assigns_consecutive_ids_witness :
    ∃ db2, NoteDB.postAll db5 [noteF1, noteF2] = some db2 ∧
      db2.notes = db5.notes ++ assignIds (5 + 1) [noteF1, noteF2] :=
  post_seq_assigns_consecutive_ids [noteF1, noteF2] db5 5
    (by decide) (by decide) (by decide) (by decide)

/-- C10: a note with a falsy id (absent or 0) posted under a new title
receives max of the existing non-null ids plus one (an id of 0 counts as
not yet indexed and is replaced); a note carrying any nonzero id keeps
that id verbatim through _new_id and is appended with it under a new
title, with no check that the id is unused by other records. -/
theorem new_id_assignment (db : IndexDoc) (note : Note) :
    ((note.id = none ∨ note.id = some 0) →
      ∀ M, pymax (nonNullIds db.notes) = some M →
        note.title ∉ db.notes.map (fun r => r.title) →
        NoteDB.post db note =
          some (NoteDB._write_data { db with notes := db.notes ++ [mkRec note (M + 1)] })) ∧
    (∀ k : Int, note.id = some k → k ≠ 0 →
      NoteDB._new_id db.notes note = some k ∧
      (note.title ∉ db.notes.map (fun r => r.title) →
        NoteDB.post db note =
          some (NoteDB._write_data { db with notes := db.notes ++ [mkRec note k] }))) := by
  constructor
  · intro hfalsy M hmax hfresh
    have hfn : isFalsy note.id = true := by
      rcases hfalsy with h | h <;> simp [isFalsy, h]
    apply post_append db note hfresh
    simp [NoteDB._note_to_dict, NoteDB._new_id, hfn, hmax]
  · intro k hk hk0
    have hid : NoteDB._new_id db.notes note = some k := by
      simp [NoteDB._new_id, isFalsy, hk, hk0]
    refine ⟨hid, fun hfresh => ?_⟩
    apply post_append db note hfresh
    simp [NoteDB._note_to_dict, hid]

/-- A sample note carrying the preset nonzero id 5 and a fresh title. -/
def note5 : Note := ⟨['b'], ['r'], ['R'], some 5, none, ['d']⟩

/-- A sample note carrying the preset id 0 and a fresh title. -/
def note0 : Note := ⟨['c'], ['r'], ['R'], some 0, none, ['d']⟩

/-- C10 witness: on the concrete index already holding id 5, a note with
preset id 5 is appended with id 5 verbatim (the collision is not
detected), and a note with the falsy id 0 receives the fresh id 6. -/
theorem new_id_assignment_witness :
    NoteDB.post db5 note5 =
      some (NoteDB._write_data { db5 with notes := db5.notes ++ [mkRec note5 5] }) ∧
    NoteDB.post db5 note0 =
      some (NoteDB._write_data { db5 with notes := db5.notes ++ [mkRec note0 (5 + 1)] }) :=
  ⟨((new_id_assignment db5 note5).2 5 rfl (by decide)).2 (by decide),
   (new_id_assignment db5 note0).1 (Or.inr rfl) 5 (by decide) (by decide)⟩

/-- Boolean test that the first list is an initial segment of the
second. -/
def isPre : Str → Str → Bool
  | [], _ => true
  | _ :: _, [] => false
  | a :: as, b :: bs => a == b && isPre as bs

/-- Boolean test that pat occurs as a contiguous substring of the second
argument (at any position strictly inside it). -/
def containsSub (pat : Str) : Str → Bool
  | [] => false
  | c :: rest => isPre pat (c :: rest) || containsSub pat rest

/-- The literal of the tag regular expression of parse_md (the text before
the capture group). -/
def tagsPat : Str := ['T', 'a', 'g', 's', ':']

/-- The literal of the date regular expression of parse_md, including its
trailing space. -/
def postedPatD : Str := ['P', 'o', 's', 't', 'e', 'd', ' ', 'o', 'n', ' ']

/-- The literal the body regular expression of parse_md ends with (no
trailing space). -/
def postedPatB : Str := ['P', 'o', 's', 't', 'e', 'd', ' ', 'o', 'n']

/-- First match of a regular expression of the shape pat(.+): scan left to
right for an occurrence of pat followed by at least one character on the
same line; the greedy capture is the whole rest of that line.  A position
where pat matches but the line ends immediately is skipped, as the regex
engine moves the start position one character forward. -/
def scanFor (pat : Str) : Str → Option Str
  | [] => none
  | c :: rest =>
    if isPre pat (c :: rest) then
      let run := ((c :: rest).drop pat.length).takeWhile (fun x => x != '\n')
      if run = [] then scanFor pat rest else some run
    else scanFor pat rest

/-- First match of the title regular expression, hash(.+) newline: scan
for a hash followed by a nonempty run of non-newline characters that is
in turn followed by a newline; the capture is that run.  Greedy capture
with the mandatory trailing newline means a hash whose line is the final
unterminated line of the document does not match. -/
def titleCap : Str → Option Str
  | [] => none
  | c :: rest =>
    if c = '#' then
      let run := rest.takeWhile (fun x => x != '\n')
      if run = [] then titleCap rest
      else if (rest.drop run.length).head? = some '\n' then some run
      else titleCap rest
    else titleCap rest

/-- Index of the last occurrence of pat in the list, if any. -/
def lastOccur (pat : Str) : Str → Option Nat
  | [] => none
  | c :: rest =>
    match lastOccur pat rest with
    | some j => some (j + 1)
    | none => if isPre pat (c :: rest) then some 0 else none

/-- First match of the body regular expression, newline ( non-hash
dot-star ) Posted on, in dotall mode: scan for a newline followed by a
character other than hash such that Posted on occurs later; the greedy
dot-star makes the capture run from that character to the last occurrence
of Posted on. -/
def bodyCap : Str → Option Str
  | [] => none
  | c :: rest =>
    if c = '\n' then
      match rest with
      | [] => none
      | b :: rest2 =>
        if b = '#' then bodyCap rest
        else
          match lastOccur postedPatB rest2 with
          | some j => some (b :: rest2.take j)
          | none => bodyCap rest
    else bodyCap rest

/-- The whitespace character set of Python str.strip: space, tab,
newline, carriage return, vertical tab and form feed. -/
def isWS (c : Char) : Bool :=
  c == ' ' || c == '\t' || c == '\n' || c == '\r' || c == '\x0b' || c == '\x0c'

/-- Python str.strip: remove leading and trailing whitespace. -/
def pyStrip (s : Str) : Str :=
  ((s.dropWhile isWS).reverse.dropWhile isWS).reverse

/-- The parser parse_md (applied to the already read file content): the
four findall calls of the source, each failing (IndexError) when its
pattern has no match.  The tags capture is stripped as a whole and then
split on commas; a resulting single empty string (the tag text was blank)
is normalized to Python None.  The result tuple is title, body, date,
tags, in the order the source returns them. -/
def parse_md (s : Str) : Option (Str × Str × Str × Option (List Str)) :=
  match titleCap s, scanFor tagsPat s, scanFor postedPatD s, bodyCap s with
  | some t, some tg, some d, some b =>
    let tags := List.splitOn ',' (pyStrip tg)
    some (t, pyStrip b, pyStrip d, if tags = [[]] then none else some tags)
  | _, _, _, _ => none

/-- A one-note document with title T, body B, date D and an arbitrary
rest-of-line r after the Tags marker (no space between the colon and
r). -/
def tagDoc (r : Str) : Str :=
  '#' :: (['T'] ++ ('\n' :: (['B'] ++ ('\n' :: (postedPatD ++
    (['D'] ++ ('\n' :: (tagsPat ++ (r ++ ['\n'])))))))))

/-- A list is an initial segment of itself followed by anything. -/
theorem isPre_append_self : ∀ (p z : Str), isPre p (p ++ z) = true := by
  intro p
  induction p with
  | nil => intro z; rfl
  | cons a as ih => intro z; simp [isPre, ih]

/-- Characterization of isPre by an explicit remainder. -/
theorem isPre_iff_exists : ∀ (p l : Str), isPre p l = true ↔ ∃ z, l = p ++ z := by
  intro p
  induction p with
  | nil =>
    intro l
    simp [isPre]
  | cons a as ih =>
    intro l
    cases l with
    | nil => simp [isPre]
    | cons b bs =>
      simp only [isPre, Bool.and_eq_true, beq_iff_eq, ih bs]
      constructor
      · rintro ⟨rfl, z, rfl⟩
        exact ⟨z, rfl⟩
      · rintro ⟨z, hz⟩
        cases hz
        exact ⟨rfl, z, rfl⟩

/-- When the pattern occurs nowhere in a list, it is an initial segment of
none of its suffixes that start strictly inside it. -/
theorem containsSub_false_drop : ∀ (pat a : Str), containsSub pat a = false →
    ∀ i, i < a.length → isPre pat (a.drop i) = false := by
  intro pat a
  induction a with
  | nil => intro _ i hi; simp at hi
  | cons c a2 ih =>
    intro h i hi
    simp only [containsSub, Bool.or_eq_false_iff] at h
    cases i with
    | zero => exact h.1
    | succ i2 => exact ih h.2 i2 (by simpa using hi)

/-- Scanning skips a leading block in which the pattern starts nowhere. -/
theorem scanFor_append_of (pat : Str) : ∀ (a b : Str),
    (∀ i, i < a.length → isPre pat ((a ++ b).drop i) = false) →
    scanFor pat (a ++ b) = scanFor pat b := by
  intro a
  induction a with
  | nil => intro b _; rfl
  | cons c a2 ih =>
    intro b h
    have h0 : isPre pat ((c :: a2) ++ b) = false := by
      have := h 0 (by simp)
      simpa using this
    show scanFor pat (c :: (a2 ++ b)) = scanFor pat b
    simp only [scanFor]
    rw [List.cons_append] at h0
    rw [h0]
    simp only [Bool.false_eq_true, if_false]
    exact ih b (fun i hi => by simpa using h (i + 1) (by simpa using hi))

/-- From absence of the pattern in the block a and impossibility of a
match that straddles the border into b, no suffix of a extended by b
starts with the pattern. -/
theorem not_isPre_drop_append (pat a b : Str)
    (hca : containsSub pat a = false)
    (hspan : ∀ k, 0 < k → k < pat.length → isPre (pat.drop k) b = false) :
    ∀ i, i < a.length → isPre pat ((a ++ b).drop i) = false := by
  intro i hi
  rw [List.drop_append_of_le_length (by omega)]
  by_contra hT
  have hT2 : isPre pat (a.drop i ++ b) = true := by
    cases hL : isPre pat (a.drop i ++ b) with
    | false => exact absurd hL hT
    | true => rfl
  obtain ⟨z, hz⟩ := (isPre_iff_exists pat (a.drop i ++ b)).mp hT2
  have hm : (a.drop i).length = a.length - i := List.length_drop i a
  by_cases hcase : pat.length ≤ (a.drop i).length
  · have htake : (a.drop i ++ b).take pat.length = (a.drop i).take pat.length :=
      List.take_append_of_le_length hcase
    have hpat : pat = (a.drop i).take pat.length := by
      conv_lhs => rw [← List.take_left pat z]
      rw [← hz, htake]
    have : isPre pat (a.drop i) = true := by
      rw [isPre_iff_exists]
      refine ⟨(a.drop i).drop pat.length, ?_⟩
      conv_lhs => rw [← List.take_append_drop pat.length (a.drop i)]
      rw [← hpat]
    rw [containsSub_false_drop pat a hca i hi] at this
    cases this
  · have hlt : (a.drop i).length < pat.length := by omega
    have hpos : 0 < (a.drop i).length := by
      rw [hm]; omega
    have htake : (pat ++ z).take (a.drop i).length = pat.take (a.drop i).length :=
      List.take_append_of_le_length (by omega)
    have hfront : a.drop i = pat.take (a.drop i).length := by
      conv_lhs => rw [← List.take_left (a.drop i) b]
      rw [hz, htake]
    have hsplit : a.drop i ++ (pat.drop (a.drop i).length ++ z) = a.drop i ++ b := by
      rw [hz]
      conv_rhs => rw [← List.take_append_drop (a.drop i).length pat]
      rw [← hfront, List.append_assoc]
    have hb : b = pat.drop (a.drop i).length ++ z :=
      (List.append_cancel_left hsplit).symm
    have : isPre (pat.drop (a.drop i).length) b = true := by
      rw [isPre_iff_exists]
      exact ⟨z, hb⟩
    rw [hspan (a.drop i).length hpos hlt] at this
    cases this

/-- Scanning for pat skips a block that contains no occurrence of pat,
provided no occurrence straddles the border into b. -/
theorem scanFor_skip (pat a b : Str)
    (hca : containsSub pat a = false)
    (hspan : ∀ k, 0 < k → k < pat.length → isPre (pat.drop k) b = false) :
    scanFor pat (a ++ b) = scanFor pat b :=
  scanFor_append_of pat a b (not_isPre_drop_append pat a b hca hspan)

/-- Scanning finds the pattern at the head of the rest and captures the
remainder of its line, provided that remainder is nonempty. -/
theorem scanFor_hit (p : Char) (ps z : Str)
    (h : z.takeWhile (fun x => x != '\n') ≠ []) :
    scanFor (p :: ps) ((p :: ps) ++ z) = some (z.takeWhile (fun x => x != '\n')) := by
  have hpre : isPre (p :: ps) ((p :: ps) ++ z) = true := isPre_append_self (p :: ps) z
  have hdrop : ((p :: ps) ++ z).drop (p :: ps).length = z := List.drop_left (p :: ps) z
  show scanFor (p :: ps) (p :: (ps ++ z)) = some (z.takeWhile (fun x => x != '\n'))
  simp only [scanFor]
  rw [List.cons_append] at hpre hdrop
  rw [hpre]
  simp only [if_true]
  rw [show (p :: ps).length = ps.length + 1 from rfl] at hdrop
  simp only [List.length_cons, hdrop]
  rw [if_neg h]

/-- A newline-free block followed by a newline is exactly what the line
capture takes. -/
theorem takeWhile_append_newline (T rest : Str) (h : '\n' ∉ T) :
    (T ++ '\n' :: rest).takeWhile (fun x => x != '\n') = T := by
  induction T with
  | nil => simp [List.takeWhile_cons]
  | cons t T2 ih =>
    have ht : t ≠ '\n' := fun hEq => h (hEq ▸ List.mem_cons_self t T2)
    have h2 : '\n' ∉ T2 := fun hm => h (List.mem_cons_of_mem t hm)
    simp [List.takeWhile_cons, ht, ih h2]

/-- The title capture at the very start of a serialized note: a hash, a
nonempty newline-free title and the newline terminating the title line
give the title back. -/
theorem titleCap_hit (T rest : Str) (hne : T ≠ []) (hnl : '\n' ∉ T) :
    titleCap ('#' :: (T ++ '\n' :: rest)) = some T := by
  have hrun : (T ++ '\n' :: rest).takeWhile (fun x => x != '\n') = T :=
    takeWhile_append_newline T rest hnl
  have hdrop : (T ++ '\n' :: rest).drop T.length = '\n' :: rest :=
    List.drop_left T ('\n' :: rest)
  simp [titleCap, hrun, hne, hdrop]

/-- No proper tail of the Tags pattern can start a list that itself starts
with the Tags pattern: every inner character of the pattern differs from
its first character. -/
theorem tagsPat_span (z : Str) :
    ∀ k, 0 < k → k < tagsPat.length → isPre (tagsPat.drop k) (tagsPat ++ z) = false := by
  intro k hk1 hk2
  have hlen : tagsPat.length = 5 := rfl
  rw [hlen] at hk2
  match k, hk1, hk2 with
  | 1, _, _ => rfl
  | 2, _, _ => rfl
  | 3, _, _ => rfl
  | 4, _, _ => rfl

/-- No proper tail of the Posted on pattern can start a list that itself
starts with the Posted on pattern. -/
theorem postedPatD_span (z : Str) :
    ∀ k, 0 < k → k < postedPatD.length → isPre (postedPatD.drop k) (postedPatD ++ z) = false := by
  intro k hk1 hk2
  have hlen : postedPatD.length = 10 := rfl
  rw [hlen] at hk2
  match k, hk1, hk2 with
  | 1, _, _ => rfl
  | 2, _, _ => rfl
  | 3, _, _ => rfl
  | 4, _, _ => rfl
  | 5, _, _ => rfl
  | 6, _, _ => rfl
  | 7, _, _ => rfl
  | 8, _, _ => rfl
  | 9, _, _ => rfl

/-- The body scan passes over any newline-free block. -/
theorem bodyCap_skip (a b : Str) (h : ∀ c ∈ a, c ≠ '\n') :
    bodyCap (a ++ b) = bodyCap b := by
  induction a with
  | nil => rfl
  | cons c a2 ih =>
    have hc : c ≠ '\n' := h c (List.mem_cons_self c a2)
    show bodyCap (c :: (a2 ++ b)) = bodyCap b
    simp only [bodyCap]
    rw [if_neg hc]
    exact ih (fun x hx => h x (List.mem_cons_of_mem c hx))

/-- When the pattern starts at some position of the list, the last
occurrence search succeeds. -/
theorem lastOccur_isSome (pat : Str) (hpat : pat ≠ []) :
    ∀ (l : Str) (i : Nat), isPre pat (l.drop i) = true →
      (lastOccur pat l).isSome = true := by
  intro l
  induction l with
  | nil =>
    intro i h
    rw [List.drop_nil] at h
    cases pat with
    | nil => exact absurd rfl hpat
    | cons p ps => simp [isPre] at h
  | cons c rest ih =>
    intro i h
    simp only [lastOccur]
    cases hl : lastOccur pat rest with
    | some j => rfl
    | none =>
      cases i with
      | zero =>
        rw [List.drop_zero] at h
        rw [h]
        rfl
      | succ i2 =>
        have h2 := ih i2 (by simpa using h)
        rw [hl] at h2
        simp at h2

/-- The body capture succeeds on the layout of a serialized note: a
newline, then a body that is empty or does not start with a hash, then the
newline before the date line, then the Posted on marker and the rest. -/
theorem bodyCap_layout (C w : Str) (hC : C = [] ∨ C.head? ≠ some '#') :
    (bodyCap ('\n' :: (C ++ '\n' :: (postedPatB ++ w)))).isSome = true := by
  rcases C with _ | ⟨c0, C2⟩
  · obtain ⟨j, hj⟩ := Option.isSome_iff_exists.mp
      (lastOccur_isSome postedPatB (by decide) (postedPatB ++ w) 0
        (by simpa using isPre_append_self postedPatB w))
    simp [bodyCap, hj]
  · have hc0 : c0 ≠ '#' := by
      rcases hC with h | h
      · cases h
      · intro hEq
        exact h (by rw [hEq]; rfl)
    have hocc : isPre postedPatB
        ((C2 ++ '\n' :: (postedPatB ++ w)).drop (C2.length + 1)) = true := by
      have he : C2 ++ '\n' :: (postedPatB ++ w) = (C2 ++ ['\n']) ++ (postedPatB ++ w) := by
        simp
      have hlen : (C2 ++ ['\n']).length = C2.length + 1 := by simp
      rw [he, ← hlen, List.drop_left]
      exact isPre_append_self postedPatB w
    obtain ⟨j, hj⟩ := Option.isSome_iff_exists.mp
      (lastOccur_isSome postedPatB (by decide) _ _ hocc)
    simp [bodyCap, hc0, hj]

/-- A character other than the comma separator that is in no part of a
list of parts is not in their comma-joined concatenation. -/
theorem not_mem_intercalate (c : Char) (ts : List Str)
    (h : ∀ t ∈ ts, c ∉ t) (hc : c ≠ ',') : c ∉ List.intercalate [','] ts := by
  induction ts with
  | nil => simp [List.intercalate]
  | cons x rest ih =>
    cases rest with
    | nil =>
      simp only [List.intercalate]
      simp
      exact h x (List.mem_cons_self x [])
    | cons y zs =>
      have hx : List.intercalate [','] (x :: y :: zs) =
          x ++ [','] ++ List.intercalate [','] (y :: zs) := by
        simp [List.intercalate, List.intersperse_cons_cons]
      rw [hx]
      simp only [List.mem_append, List.mem_singleton]
      rintro ((h1 | h2) | h3)
      · exact h x (List.mem_cons_self x _) h1
      · exact hc h2
      · exact ih (fun t ht => h t (List.mem_cons_of_mem x ht)) h3

/-- The serialized note in fully right-nested form, with the string
literals replaced by the pattern constants of the parser. -/
theorem note_str_eq (n : Note) :
    Note.str n = '#' :: (n.title ++ ('\n' :: (n.content_raw ++ ('\n' ::
      (postedPatD ++ (n.date_created ++ ('\n' :: (tagsPat ++ (' ' ::
        (List.intercalate [','] (n.tags.getD []) ++ ['\n'])))))))))) := by
  simp only [Note.str]
  rw [show "Posted on ".toList = postedPatD from rfl,
    show "Tags: ".toList = tagsPat ++ [' '] from rfl]
  simp [List.append_assoc]

/-- C4 counterexample: the round trip does not hold for every Note: a note
whose single tag starts with a space serializes to a Tags line whose
whole-capture strip removes that space, so parsing returns the tag without
it, different from the original tags. -/
theorem parse_serialize_not_inverse :
    (parse_md (Note.str ⟨['T'], ['B'], [], none, some [[' ', 'a']], ['D']⟩)).map
        (fun x => x.2.2.2) = some (some [['a']]) ∧
    some (some [['a']]) ≠ some (some [[' ', 'a']]) := by
  exact ⟨rfl, by decide⟩

/-- C4 amended: parsing the serialization of a note recovers its title,
tags and date provided the note is well formed for the line-oriented
format: nonempty newline-free title, body empty or not starting with a
hash, nonempty newline-free date that strip leaves unchanged, no
occurrence of the Posted on marker before the date line nor of the Tags
marker before the tag line, and tags that are either absent or a nonempty
list, not the singleton empty tag, comma-free and newline-free, whose
comma-joined text survives the whole-capture strip.  Absent tags parse
back as absent, not as an empty sequence. -/
theorem parse_serialize_roundtrip (n : Note)
    (ht1 : n.title ≠ [])
    (ht2 : '\n' ∉ n.title)
    (hc : n.content_raw = [] ∨ n.content_raw.head? ≠ some '#')
    (hd1 : n.date_created ≠ [])
    (hd2 : '\n' ∉ n.date_created)
    (hd3 : pyStrip n.date_created = n.date_created)
    (hk1 : containsSub postedPatD
      ('#' :: (n.title ++ ('\n' :: (n.content_raw ++ ['\n'])))) = false)
    (hk2 : containsSub tagsPat
      ('#' :: (n.title ++ ('\n' :: (n.content_raw ++ ('\n' :: (postedPatD ++
        (n.date_created ++ ['\n']))))))) = false)
    (htg : n.tags = none ∨ ∃ ts, n.tags = some ts ∧ ts ≠ [] ∧ ts ≠ [[]] ∧
      (∀ t ∈ ts, ',' ∉ t ∧ '\n' ∉ t) ∧
      pyStrip (' ' :: List.intercalate [','] ts) = List.intercalate [','] ts) :
    ∃ body, parse_md (Note.str n) = some (n.title, body, n.date_created, n.tags) := by
  have hstr := note_str_eq n
  have htitle : titleCap (Note.str n) = some n.title := by
    rw [hstr]
    exact titleCap_hit n.title _ ht1 ht2
  have htg0 : '\n' ∉ List.intercalate [','] (n.tags.getD []) := by
    rcases htg with h | ⟨ts, hts, _, _, hcn, _⟩
    · rw [h]
      simp [List.intercalate]
    · rw [hts]
      exact not_mem_intercalate '\n' ts (fun t ht => (hcn t ht).2) (by decide)
  have hsplitD : Note.str n =
      ('#' :: (n.title ++ ('\n' :: (n.content_raw ++ ['\n'])))) ++
      (postedPatD ++ (n.date_created ++ ('\n' :: (tagsPat ++ (' ' ::
        (List.intercalate [','] (n.tags.getD []) ++ ['\n'])))))) := by
    rw [hstr]
    simp [List.append_assoc]
  have hdate : scanFor postedPatD (Note.str n) = some n.date_created := by
    rw [hsplitD, scanFor_skip postedPatD _ _ hk1 (postedPatD_span _)]
    have hTW : (n.date_created ++ ('\n' :: (tagsPat ++ (' ' ::
        (List.intercalate [','] (n.tags.getD []) ++ ['\n']))))).takeWhile
          (fun x => x != '\n') = n.date_created :=
      takeWhile_append_newline n.date_created _ hd2
    have := scanFor_hit 'P' ['o', 's', 't', 'e', 'd', ' ', 'o', 'n', ' ']
      (n.date_created ++ ('\n' :: (tagsPat ++ (' ' ::
        (List.intercalate [','] (n.tags.getD []) ++ ['\n']))))) (by rw [hTW]; exact hd1)
    rw [hTW] at this
    exact this
  have hsplitT : Note.str n =
      ('#' :: (n.title ++ ('\n' :: (n.content_raw ++ ('\n' :: (postedPatD ++
        (n.date_created ++ ['\n']))))))) ++
      (tagsPat ++ (' ' :: (List.intercalate [','] (n.tags.getD []) ++ ['\n']))) := by
    rw [hstr]
    simp [List.append_assoc]
  have htags : scanFor tagsPat (Note.str n) =
      some (' ' :: List.intercalate [','] (n.tags.getD [])) := by
    rw [hsplitT, scanFor_skip tagsPat _ _ hk2 (tagsPat_span _)]
    have hTW : (' ' :: (List.intercalate [','] (n.tags.getD []) ++ ['\n'])).takeWhile
        (fun x => x != '\n') = ' ' :: List.intercalate [','] (n.tags.getD []) := by
      have he : ' ' :: (List.intercalate [','] (n.tags.getD []) ++ ['\n']) =
          (' ' :: List.intercalate [','] (n.tags.getD [])) ++ '\n' :: [] := by simp
      rw [he]
      refine takeWhile_append_newline _ _ ?_
      intro hm
      rcases List.mem_cons.mp hm with h | h
      · cases h
      · exact htg0 h
    have := scanFor_hit 'T' ['a', 'g', 's', ':']
      (' ' :: (List.intercalate [','] (n.tags.getD []) ++ ['\n']))
      (by rw [hTW]; exact List.cons_ne_nil _ _)
    rw [hTW] at this
    exact this
  have hsplitB : Note.str n =
      ('#' :: n.title) ++ ('\n' :: (n.content_raw ++ ('\n' :: (postedPatB ++
        (' ' :: (n.date_created ++ ('\n' :: (tagsPat ++ (' ' ::
          (List.intercalate [','] (n.tags.getD []) ++ ['\n'])))))))))) := by
    rw [hstr, show postedPatD = postedPatB ++ [' '] from rfl]
    simp [List.append_assoc]
  have hbody : (bodyCap (Note.str n)).isSome = true := by
    rw [hsplitB, bodyCap_skip ('#' :: n.title) _ ?_]
    · exact bodyCap_layout n.content_raw _ hc
    · intro x hx
      rcases List.mem_cons.mp hx with h | h
      · rw [h]; decide
      · intro hEq
        exact ht2 (hEq ▸ h)
  obtain ⟨b, hb⟩ := Option.isSome_iff_exists.mp hbody
  refine ⟨pyStrip b, ?_⟩
  simp only [parse_md, htitle, htags, hdate, hb, hd3]
  rcases htg with h | ⟨ts, hts, hne, hne2, hcn, hstrip⟩
  · rw [h]
    rfl
  · rw [hts]
    simp only [Option.getD_some]
    rw [hstrip, List.splitOn_intercalate ts ',' (fun t ht => (hcn t ht).1) hne]
    rw [if_neg hne2]

/-- C4 witness: the round trip on a concrete well-formed note with two
tags recovers title, tags and date. -/
theorem parse_serialize_roundtrip_witness :
    ∃ body, parse_md (Note.str ⟨['T'], ['B'], [], none, some [['a'], ['b']], ['D']⟩) =
      some (['T'], body, ['D'], some [['a'], ['b']]) :=
  parse_serialize_roundtrip ⟨['T'], ['B'], [], none, some [['a'], ['b']], ['D']⟩
    (by decide) (by decide) (Or.inr (by decide)) (by decide) (by decide) rfl
    (by decide) (by decide)
    (Or.inr ⟨[['a'], ['b']], rfl, by decide, by decide, by decide, rfl⟩)

/-- C5 counterexample: the parser does not trim the individual tag
elements: on a document whose tag line is Tags:a comma space b, the parsed
tags keep the space before b, instead of the claimed trimmed pair. -/
theorem parse_tags_not_trimmed :
    (parse_md (tagDoc ['a', ',', ' ', 'b'])).map (fun x => x.2.2.2) =
      some (some [['a'], [' ', 'b']]) ∧
    some (some [['a'], [' ', 'b']]) ≠ some (some [['a'], ['b']]) := by
  exact ⟨rfl, by decide⟩

/-- C5 amended: for a document whose tag line carries the rest-of-line r
(nonempty, newline-free), the parser strips the captured text r as a whole
and then splits it on commas, without trimming the individual elements; a
whole capture that strips to the empty string (the tag text is blank)
yields absent tags rather than a singleton empty tag. -/
theorem parse_tags_split (r : Str) (hne : r ≠ []) (hnl : '\n' ∉ r) :
    ∃ body, parse_md (tagDoc r) =
      some (['T'], body, ['D'],
        if List.splitOn ',' (pyStrip r) = [[]] then none
        else some (List.splitOn ',' (pyStrip r))) := by
  have htitle : titleCap (tagDoc r) = some ['T'] := by
    exact titleCap_hit ['T'] _ (by decide) (by decide)
  have hsplitD : tagDoc r =
      ('#' :: (['T'] ++ ('\n' :: (['B'] ++ ['\n'])))) ++
      (postedPatD ++ (['D'] ++ ('\n' :: (tagsPat ++ (r ++ ['\n']))))) := by
    simp [tagDoc, List.append_assoc]
  have hdate : scanFor postedPatD (tagDoc r) = some ['D'] := by
    rw [hsplitD, scanFor_skip postedPatD _ _ (by decide) (postedPatD_span _)]
    have hTW : (['D'] ++ ('\n' :: (tagsPat ++ (r ++ ['\n'])))).takeWhile
        (fun x => x != '\n') = ['D'] :=
      takeWhile_append_newline ['D'] _ (by decide)
    have := scanFor_hit 'P' ['o', 's', 't', 'e', 'd', ' ', 'o', 'n', ' ']
      (['D'] ++ ('\n' :: (tagsPat ++ (r ++ ['\n'])))) (by rw [hTW]; decide)
    rw [hTW] at this
    exact this
  have hsplitT : tagDoc r =
      ('#' :: (['T'] ++ ('\n' :: (['B'] ++ ('\n' :: (postedPatD ++
        (['D'] ++ ['\n']))))))) ++ (tagsPat ++ (r ++ ['\n'])) := by
    simp [tagDoc, List.append_assoc]
  have htags : scanFor tagsPat (tagDoc r) = some r := by
    rw [hsplitT, scanFor_skip tagsPat _ _ (by decide) (tagsPat_span _)]
    have hTW : (r ++ ['\n']).takeWhile (fun x => x != '\n') = r := by
      have he : r ++ ['\n'] = r ++ '\n' :: [] := rfl
      rw [he]
      exact takeWhile_append_newline r [] hnl
    have := scanFor_hit 'T' ['a', 'g', 's', ':'] (r ++ ['\n']) (by rw [hTW]; exact hne)
    rw [hTW] at this
    exact this
  have hsplitB : tagDoc r =
      ('#' :: ['T']) ++ ('\n' :: (['B'] ++ ('\n' :: (postedPatB ++
        (' ' :: (['D'] ++ ('\n' :: (tagsPat ++ (r ++ ['\n'])))))))))  := by
    simp [tagDoc, show postedPatD = postedPatB ++ [' '] from rfl, List.append_assoc]
  have hbody : (bodyCap (tagDoc r)).isSome = true := by
    rw [hsplitB, bodyCap_skip ('#' :: ['T']) _ (by decide)]
    exact bodyCap_layout ['B'] _ (Or.inr (by decide))
  obtain ⟨b, hb⟩ := Option.isSome_iff_exists.mp hbody
  refine ⟨pyStrip b, ?_⟩
  simp only [parse_md, htitle, htags, hdate, hb]
  rfl

/-- C5 witness: on the concrete tag line text a comma space b the parser
returns the pair a and space-b (the space kept), and on a blank
(single-space) tag line text it returns absent tags. -/
theorem parse_tags_split_witness :
    (∃ body, parse_md (tagDoc ['a', ',', ' ', 'b']) =
      some (['T'], body, ['D'],
        if List.splitOn ',' (pyStrip ['a', ',', ' ', 'b']) = [[]] then none
        else some (List.splitOn ',' (pyStrip ['a', ',', ' ', 'b'])))) ∧
    (∃ body, parse_md (tagDoc [' ']) =
      some (['T'], body, ['D'],
        if List.splitOn ',' (pyStrip [' ']) = [[]] then none
        else some (List.splitOn ',' (pyStrip [' '])))) :=
  ⟨parse_tags_split ['a', ',', ' ', 'b'] (by decide) (by decide),
   parse_tags_split [' '] (by decide) (by decide)⟩
